import Mathlib

/-!
# Verification of the il2cpp dumper fragment

A shallow embedding of the dumper (`Il2CppDumper`), the image class-table
construction (`Il2CppImage.classes`) and the assembly naming
(`Il2CppAssembly.name`), together with theorems checking the specification's
claims about them.

Conventions of the embedding:
* native pointers and handles are `Nat` (`0` is the null pointer);
* the VM runtime entry points (`Api._imageGetClassCount`, `Api._imageGetClass`,
  `Api._typeGetClassOrElementClass`, ...) are fields of an abstract `VM`
  structure, so every theorem quantifies over all possible VM answers;
* code of the repository that is not part of the analysed sources
  (the `Accessor` utility, `formatNativePointer`, the generic `inflateRaw`
  primitives, the cache decorator) is modelled from the specification's
  description; each such definition carries a doc comment saying so.
-/

set_option maxHeartbeats 1000000

namespace Il2CppModel

/-- A type-argument placeholder object.  `systemObject` is the
`System.Object` instance the dumper uses as the "any reference type"
stand-in; `other` covers every other runtime object. -/
inductive TypeObj where
  | systemObject : TypeObj
  | other : Nat → TypeObj
deriving DecidableEq

/-- View of an `Il2CppMethod`: its name, generic flags and code addresses.
`virtualAddress = 0` models a null virtual address (no compiled body). -/
structure Method where
  name : String
  isGeneric : Bool
  genericParameterCount : Nat
  virtualAddress : Nat
  relativeVirtualAddress : Nat
deriving DecidableEq

/-- View of an `Il2CppClass`: `typeName` is `klass.type.name` (the full
type name used both as the accessor key and in the methods-dump lines). -/
structure Class where
  typeName : String
  isGeneric : Bool
  genericParameterCount : Nat
  methods : List Method
deriving DecidableEq

/-- From the source (`methods()`):
`Il2Cpp.Array.from(SystemType, Array(genericParameterCount).fill(SystemObject))`
— an argument array of the given length, every slot the `System.Object`
placeholder. -/
def getTypeArray (genericParameterCount : Nat) : List TypeObj :=
  List.replicate genericParameterCount TypeObj.systemObject

/-- Modelled from the spec: `Class.inflateRaw` (the class struct is not among
the analysed sources).  A raw instantiation binds the placeholder arguments
and closes the definition: per the spec, instantiating an open generic class
"yields an entity whose `isGeneric` is false and whose Methods all report
non-generic" addresses; the methods carry the class's substitution. -/
def Class.inflateRaw (c : Class) (args : List TypeObj) : Class :=
  let _ := args
  { c with
    isGeneric := false
    methods := c.methods.map (fun m => { m with isGeneric := false }) }

/-- Modelled from the spec: `Method.inflateRaw` (the method struct is not
among the analysed sources).  A raw instantiation binds the method's own
generic parameter list, closing it. -/
def Method.inflateRaw (m : Method) (args : List TypeObj) : Method :=
  let _ := args
  { m with isGeneric := false }

/-- Modelled from the spec: `formatNativePointer` (from the `utils` module,
not among the analysed sources) renders an address as a stable fixed-width
hexadecimal token: 16 zero-padded lowercase hex digits after a `0x` marker. -/
def hexDigit (d : Nat) : Char :=
  if d < 10 then Char.ofNat (48 + d) else Char.ofNat (87 + d)

/-- The fixed-width hexadecimal rendering used by the methods dump
(see `hexDigit`; modelled from the spec, width 16 = two hex digits per
byte of an 8-byte pointer). -/
def formatNativePointer (p : Nat) : String :=
  "0x" ++ String.mk (((List.range 16).reverse).map (fun k => hexDigit (p / 16 ^ k % 16)))

/-- From the source (`methods()` generator body): the line emitted for one
method, or `none` when its virtual address is null —
`if (!method.virtualAddress.isNull()) yield ...`. -/
def methodLine (typeName : String) (m : Method) : Option String :=
  if m.virtualAddress ≠ 0 then
    some (formatNativePointer m.relativeVirtualAddress ++ " " ++ typeName ++ "." ++ m.name ++ "\n")
  else
    none

/-- From the source: `if (klass.isGeneric) klass = klass.inflateRaw(getTypeArray(klass.genericParameterCount))`.
Returns the class actually traversed plus the inflation performed
(recorded as the generic parameter count and the argument list passed). -/
def processClass (c : Class) : Class × List (Nat × List TypeObj) :=
  if c.isGeneric then
    (c.inflateRaw (getTypeArray c.genericParameterCount),
      [(c.genericParameterCount, getTypeArray c.genericParameterCount)])
  else
    (c, [])

/-- From the source: `if (method.isGeneric && !klass.isGeneric) method = method.inflateRaw(getTypeArray(method.genericParameterCount))`
where `klass` is the class value in scope in the loop (possibly already
inflated).  Returns the method actually dumped plus the inflation performed. -/
def processMethod (classIsGeneric : Bool) (m : Method) : Method × List (Nat × List TypeObj) :=
  if m.isGeneric && !classIsGeneric then
    (m.inflateRaw (getTypeArray m.genericParameterCount),
      [(m.genericParameterCount, getTypeArray m.genericParameterCount)])
  else
    (m, [])

/-- Output of dumping one class in the methods dump: the emitted lines and
the traces of class-level and method-level inflations performed. -/
structure ClassDumpResult where
  lines : List String
  classInflations : List (Nat × List TypeObj)
  methodInflations : List (Nat × List TypeObj)
deriving DecidableEq

/-- From the source (`methods()` generator, inner two loops): inflate the
class if generic, then for each of its methods inflate it if the guard
holds and emit a line when the virtual address is non-null. -/
def dumpClassMethods (c0 : Class) : ClassDumpResult :=
  let pc := processClass c0
  let c := pc.1
  let pms := c.methods.map (fun m0 => processMethod c.isGeneric m0)
  { lines := pms.filterMap (fun pm => methodLine c.typeName pm.1)
    classInflations := pc.2
    methodInflations := (pms.map Prod.snd).flatten }

/-- The by-name class table: a string-keyed slot list. -/
abbrev Accessor := List (String × Class)

/-- Modelled from the spec: the `Accessor` utility (`utils/accessor`, not
among the analysed sources).  `accessor[key] = value` inserts a new slot at
the end when the key is fresh, and otherwise overwrites the existing slot in
place (last-write-wins, keeping the slot's position); iteration yields the
slots in insertion order. -/
def accessorSet : Accessor → String → Class → Accessor
  | [], k, v => [(k, v)]
  | p :: a, k, v => if p.1 = k then (k, v) :: a else p :: accessorSet a k v

/-- Inserting a sequence of classes into the table, each keyed by its full
type name, in traversal order — the loop body `accessor[klass.type.name] = klass`. -/
def accessorInsertAll (a : Accessor) : List Class → Accessor
  | [] => a
  | c :: cs => accessorInsertAll (accessorSet a c.typeName c) cs

/-- The table built from a traversal starting from an empty accessor. -/
def accessorOfList (cs : List Class) : Accessor :=
  accessorInsertAll [] cs

/-- Lookup by key (first slot with that key). -/
def accessorGet? (a : Accessor) (k : String) : Option Class :=
  (a.find? (fun p => p.1 = k)).map Prod.snd

/-- The values of the table, in slot order — what a `for..of` loop over the
accessor traverses. -/
def accessorValues (a : Accessor) : List Class :=
  a.map Prod.snd

/-- The keys of the table, in slot order. -/
def accessorKeys (a : Accessor) : List String :=
  a.map Prod.fst

/-- The synthesized type descriptor used by the legacy class resolution:
a pointer-sized scratch buffer with the global class index written at
offset 0 and the type-enum field (constant `0x20`) written at
`Il2CppType.offsetOfTypeEnum`. -/
structure TypeDescriptor where
  index : Int
  typeEnum : Int
deriving DecidableEq

/-- The VM runtime entry points consumed by the embedded code, plus the
session-wide version flag (`unityVersion.isLegacy`) and the domain's image
handles in registration order. -/
structure VM where
  legacy : Bool
  assemblies : List Nat
  imageGetClassCount : Nat → Nat
  imageGetClassStart : Nat → Int
  imageGetClass : Nat → Nat → Class
  typeGetClassOrElementClass : TypeDescriptor → Class
  imageGetName : Nat → String

/-- Result of the legacy class-resolution loop: the by-name table, the final
state of the scratch descriptor, and the trace of descriptor values passed
to `Api._typeGetClassOrElementClass`, in call order. -/
structure LegacyResult where
  table : Accessor
  descriptor : TypeDescriptor
  resolved : List TypeDescriptor

/-- From the source (`Il2CppImage.classes`, legacy branch):
`for (let i = start; i < end; i++) { klass = new Il2CppClass(Api._typeGetClassOrElementClass(globalIndex.writeInt(i))); accessor[klass.type.name] = klass }`.
`i` is the next global index, the `Nat` argument the remaining iteration
count. -/
def legacyClassesLoop (vm : VM) : Int → Nat → Accessor → TypeDescriptor → List TypeDescriptor → LegacyResult
  | _, 0, acc, d, tr => ⟨acc, d, tr⟩
  | i, n + 1, acc, d, tr =>
    let d2 := { d with index := i }
    let klass := vm.typeGetClassOrElementClass d2
    legacyClassesLoop vm (i + 1) n (accessorSet acc klass.typeName klass) d2 (tr ++ [d2])

/-- From the source: the legacy branch of `Il2CppImage.classes` — descriptor
freshly allocated (zeroed) with `0x20` written at the type-enum offset, loop
from `classStart` for `classCount` iterations. -/
def imageClassesLegacy (vm : VM) (h : Nat) : LegacyResult :=
  legacyClassesLoop vm (vm.imageGetClassStart h) (vm.imageGetClassCount h) [] ⟨0, 0x20⟩ []

/-- From the source (`Il2CppImage.classes`, current branch):
`for (let i = 0; i < end; i++) { accessor[klass.type.name] = new Il2CppClass(Api._imageGetClass(this.handle, i)) }`.
Also returns the trace of indices queried from the VM, in call order. -/
def currentClassesLoop (vm : VM) (h : Nat) : Nat → Nat → Accessor → List Nat → Accessor × List Nat
  | _, 0, acc, tr => (acc, tr)
  | i, n + 1, acc, tr =>
    let klass := vm.imageGetClass h i
    currentClassesLoop vm h (i + 1) n (accessorSet acc klass.typeName klass) (tr ++ [i])

/-- From the source: the current (non-legacy) branch of `Il2CppImage.classes`. -/
def imageClassesCurrent (vm : VM) (h : Nat) : Accessor × List Nat :=
  currentClassesLoop vm h 0 (vm.imageGetClassCount h) [] []

/-- From the source: `Il2CppImage.classes` selects the strategy from the
session-wide version flag. -/
def imageClasses (vm : VM) (h : Nat) : Accessor :=
  if vm.legacy then (imageClassesLegacy vm h).table else (imageClassesCurrent vm h).1

/-- The raw class sequence an image's traversal resolves, in resolution
order (before the by-name table collapses duplicate names). -/
def imageRawClasses (vm : VM) (h : Nat) : List Class :=
  if vm.legacy then
    (List.range (vm.imageGetClassCount h)).map
      (fun j : Nat => vm.typeGetClassOrElementClass ⟨vm.imageGetClassStart h + (j : Int), 0x20⟩)
  else
    (List.range (vm.imageGetClassCount h)).map (fun j => vm.imageGetClass h j)

/-- The current-branch raw class sequence: the Nth class of the image for
every N below `classCount`, in index order. -/
def rawClassesCurrent (vm : VM) (h : Nat) : List Class :=
  (List.range (vm.imageGetClassCount h)).map (fun j => vm.imageGetClass h j)

/-- From the source (`classes()` generator): for every assembly, yield
`klass.toString()` for every class of its image's class table.  The
rendering `Class.toString` (the class struct is not among the analysed
sources) is passed as an opaque parameter. -/
def classesDumpImage (render : Class → String) (vm : VM) (h : Nat) : List String :=
  (accessorValues (imageClasses vm h)).map render

/-- From the source (`methods()` generator): for every class of the image's
class table, the lines of `dumpClassMethods`. -/
def methodsDumpImage (vm : VM) (h : Nat) : List String :=
  (accessorValues (imageClasses vm h)).flatMap (fun c => (dumpClassMethods c).lines)

/-- The full classes dump chunk sequence over the domain's assemblies
(progress notices go to the console, not into the chunk sequence). -/
def classesDump (render : Class → String) (vm : VM) : List String :=
  vm.assemblies.flatMap (fun h => classesDumpImage render vm h)

/-- The full methods dump chunk sequence over the domain's assemblies. -/
def methodsDump (vm : VM) : List String :=
  vm.assemblies.flatMap (fun h => methodsDumpImage vm h)

/-- An image wrapper together with the memoization cell of its `classes`
property. -/
structure ImageState where
  handle : Nat
  classesCache : Option Accessor

/-- Modelled from the spec: the cache decorator on `Il2CppImage.classes`
(external package).  The property is computed on first access and the cached
value returned thereafter; the third component counts the VM class queries
performed by the access. -/
def cachedClasses (vm : VM) (s : ImageState) : Accessor × ImageState × Nat :=
  match s.classesCache with
  | some a => (a, s, 0)
  | none =>
    let a := imageClasses vm s.handle
    (a, ⟨s.handle, some a⟩, vm.imageGetClassCount s.handle)

/-- An operation performed on the destination file handle. -/
inductive FileOp where
  | write : String → FileOp
  | flushOp : FileOp
  | closeOp : FileOp
deriving DecidableEq

/-- Failure conditions of `build`. -/
inductive DumpError where
  | ioFailure : DumpError
  | generatorError : String → DumpError
deriving DecidableEq

/-- From the source (`build()` write loop):
`for (const chunk of this.#generator!()) file.write(chunk); file.flush(); file.close();`.
A chunk is `Except.error e` when the generator throws while producing it; the
exception propagates out of the loop (there is no try/finally), so `flush`
and `close` run only after the loop completes. -/
def buildWriteLoop (ops : List FileOp) : List (Except String String) → List FileOp × Option DumpError
  | [] => (ops ++ [FileOp.flushOp, FileOp.closeOp], none)
  | Except.ok s :: rest => buildWriteLoop (ops ++ [FileOp.write s]) rest
  | Except.error e :: _ => (ops, some (DumpError.generatorError e))

/-- From the source (`build()`): open the destination file for writing
(`new File(destinationPath, "w")`; an open failure throws, modelled by
`openOk = false`, and nothing is written), then stream the chunks.
Returns the trace of operations performed on the file handle and the error
the call propagates, if any. -/
def build (openOk : Bool) (chunks : List (Except String String)) :
    List FileOp × Option DumpError :=
  if openOk then buildWriteLoop [] chunks else ([], some DumpError.ioFailure)

/-- The host application's accessors consumed by the default naming.
Modelled from the spec: the identifier and version getters are invoked
through the metadata model (`getUntilFound(...)!.invoke()`, helpers not among
the analysed sources); `none` models a getter that is absent or whose
invocation throws. -/
structure HostApp where
  persistentDataPath : String
  identifier : Option String
  version : Option String
  timestamp : Nat

/-- From the source (`defaultFileName`): `` `${identifier}_${version}` ``,
falling back to `` `${new Date().getTime()}` `` when the try-block throws
(either getter absent or failing). -/
def defaultFileName (host : HostApp) : String :=
  match host.identifier, host.version with
  | some id, some v => id ++ "_" ++ v
  | _, _ => toString host.timestamp

/-- The builder's configuration fields (`#directoryPath`, `#fileName`,
`#extension`). -/
structure DumperConfig where
  directoryPath : Option String
  fileName : Option String
  chosenExtension : Option String

/-- From the source (`classes()` / `methods()`): the extension each dump
kind sets. -/
inductive DumpKind where
  | classesKind : DumpKind
  | methodsKind : DumpKind
deriving DecidableEq

/-- `this.#extension` after selecting a dump kind: `"cs"` for the classes
dump, `"ms"` for the methods dump. -/
def extensionFor : DumpKind → String
  | DumpKind.classesKind => "cs"
  | DumpKind.methodsKind => "ms"

/-- From the source (`build()`, destination computation):
`` `${directoryPath ?? default}/${fileName ?? default}.${extension ?? "dump"}` ``
with `defaultDirectoryPath = persistentDataPath`. -/
def destinationPath (cfg : DumperConfig) (host : HostApp) : String :=
  (cfg.directoryPath.getD host.persistentDataPath) ++ "/" ++
    (cfg.fileName.getD (defaultFileName host)) ++ "." ++
    (cfg.chosenExtension.getD "dump")

/-- Replace the first occurrence of `pat` in the list with `rep` — the
semantics of JavaScript `String.replace` with a plain-string pattern, used
by `Il2CppAssembly.name`. -/
def replaceFirst (pat rep : List Char) : List Char → List Char
  | [] => []
  | c :: cs =>
    if pat.isPrefixOf (c :: cs) then rep ++ (c :: cs).drop pat.length
    else c :: replaceFirst pat rep cs

/-- From the source (`Il2CppAssembly.name`):
`this.image.name.replace(".dll", "")`. -/
def assemblyName (imageName : String) : String :=
  String.mk (replaceFirst ".dll".data [] imageName.data)

/-- The last class of the traversal carrying the given full type name —
the class a last-write-wins table holds for that key. -/
def lastWith? (k : String) : List Class → Option Class
  | [] => none
  | c :: cs =>
    match lastWith? k cs with
    | some c2 => some c2
    | none => if c.typeName = k then some c else none

/-- The subsequence of first occurrences of a key sequence, in traversal
order, skipping keys already seen: the order in which a last-write-wins
table allocates its slots. -/
def newKeys (seen : List String) : List String → List String
  | [] => []
  | k :: ks => if k ∈ seen then newKeys seen ks else k :: newKeys (k :: seen) ks

/-- The class value actually traversed by the methods dump for a source
class: the class itself, or its placeholder instantiation when generic. -/
def processedClass (c0 : Class) : Class :=
  (processClass c0).1

/-- The method values actually dumped for a source class, after the
per-method inflation guard. -/
def processedMethods (c0 : Class) : List Method :=
  (processedClass c0).methods.map (fun m0 => (processMethod (processedClass c0).isGeneric m0).1)

/-- A class named `A` with no methods, used in concrete scenarios. -/
def classA : Class :=
  { typeName := "A", isGeneric := false, genericParameterCount := 0, methods := [] }

/-- A second class also named `A`, distinguishable from `classA` by its
method list: a full-type-name collision partner. -/
def classA2 : Class :=
  { typeName := "A", isGeneric := false, genericParameterCount := 0
    methods := [{ name := "M", isGeneric := false, genericParameterCount := 0,
                  virtualAddress := 4096, relativeVirtualAddress := 256 }] }

/-- A class named `B` with no methods. -/
def classB : Class :=
  { typeName := "B", isGeneric := false, genericParameterCount := 0, methods := [] }

/-- An open generic class with two type parameters and no methods. -/
def genericClassG : Class :=
  { typeName := "G", isGeneric := true, genericParameterCount := 2, methods := [] }

/-- A concrete non-generic method with a compiled body. -/
def sampleMethod : Method :=
  { name := "M0", isGeneric := false, genericParameterCount := 0,
    virtualAddress := 4096, relativeVirtualAddress := 256 }

/-- A Current-layout VM whose image `0` reports two classes that share the
full type name `A` (and are indistinguishable). -/
def collisionVM : VM :=
  { legacy := false
    assemblies := [0]
    imageGetClassCount := fun _ => 2
    imageGetClassStart := fun _ => 0
    imageGetClass := fun _ _ => classA
    typeGetClassOrElementClass := fun _ => classA
    imageGetName := fun _ => "a.dll" }

/-- A Current-layout VM whose image `0` reports two DISTINCT classes sharing
the full type name `A`: index 0 resolves to `classA`, index 1 to `classA2`. -/
def collisionVM2 : VM :=
  { legacy := false
    assemblies := [0]
    imageGetClassCount := fun _ => 2
    imageGetClassStart := fun _ => 0
    imageGetClass := fun _ i => if i = 0 then classA else classA2
    typeGetClassOrElementClass := fun _ => classA
    imageGetName := fun _ => "a.dll" }

/-- A Current-layout VM whose image `0` reports two classes with distinct
full type names `A` and `B`. -/
def distinctVM : VM :=
  { legacy := false
    assemblies := [0]
    imageGetClassCount := fun _ => 2
    imageGetClassStart := fun _ => 0
    imageGetClass := fun _ i => if i = 0 then classA else classB
    typeGetClassOrElementClass := fun _ => classA
    imageGetName := fun _ => "a.dll" }

theorem accessorGet?_set_self (a : Accessor) (k : String) (v : Class) :
    accessorGet? (accessorSet a k v) k = some v := by
  induction a with
  | nil => simp [accessorSet, accessorGet?]
  | cons p a ih =>
    by_cases h : p.1 = k
    · simp [accessorSet, h, accessorGet?]
    · simpa [accessorSet, h, accessorGet?] using ih

theorem accessorGet?_set_ne (a : Accessor) (k k2 : String) (v : Class) (h : k2 ≠ k) :
    accessorGet? (accessorSet a k v) k2 = accessorGet? a k2 := by
  have hk : ¬ k = k2 := fun h2 => h h2.symm
  induction a with
  | nil => simp [accessorSet, accessorGet?, hk]
  | cons p a ih =>
    by_cases hp : p.1 = k
    · have hp2 : ¬ p.1 = k2 := fun h2 => h (h2.symm.trans hp)
      simp [accessorSet, hp, accessorGet?, hk, hp2]
    · by_cases hq : p.1 = k2
      · simp [accessorSet, hp, accessorGet?, hq, h]
      · simpa [accessorSet, hp, accessorGet?, hq] using ih

theorem accessorKeys_set (a : Accessor) (k : String) (v : Class) :
    accessorKeys (accessorSet a k v) =
      if k ∈ accessorKeys a then accessorKeys a else accessorKeys a ++ [k] := by
  induction a with
  | nil => simp [accessorSet, accessorKeys]
  | cons p a ih =>
    by_cases h : p.1 = k
    · simp [accessorSet, h, accessorKeys]
    · have h2 : ¬ k = p.1 := fun h3 => h h3.symm
      simp only [accessorSet, accessorKeys, List.map_cons, if_neg h, List.mem_cons] at ih ⊢
      rw [ih]
      by_cases hmem : k ∈ List.map Prod.fst a
      · simp [hmem, h2]
      · simp [hmem, h2]

theorem accessorSet_of_not_mem (a : Accessor) (k : String) (v : Class)
    (h : k ∉ accessorKeys a) : accessorSet a k v = a ++ [(k, v)] := by
  induction a with
  | nil => simp [accessorSet]
  | cons p a ih =>
    simp only [accessorKeys, List.map_cons, List.mem_cons, not_or] at h
    have hp : ¬ p.1 = k := fun h2 => h.1 h2.symm
    simp only [accessorSet, if_neg hp, List.cons_append]
    rw [ih (by simpa [accessorKeys] using h.2)]

theorem accessorGet?_insertAll (cs : List Class) : ∀ (a : Accessor) (k : String),
    accessorGet? (accessorInsertAll a cs) k =
      match lastWith? k cs with
      | some c => some c
      | none => accessorGet? a k := by
  induction cs with
  | nil =>
    intro a k
    simp [accessorInsertAll, lastWith?]
  | cons c cs ih =>
    intro a k
    show accessorGet? (accessorInsertAll (accessorSet a c.typeName c) cs) k = _
    rw [ih]
    cases hlast : lastWith? k cs with
    | some c2 => simp [lastWith?, hlast]
    | none =>
      by_cases hk : c.typeName = k
      · simp [lastWith?, hlast, hk, accessorGet?_set_self]
      · simp [lastWith?, hlast, hk,
          accessorGet?_set_ne a c.typeName k c (fun h2 => hk h2.symm)]

theorem newKeys_congr (l : List String) : ∀ s1 s2 : List String,
    (∀ x, x ∈ s1 ↔ x ∈ s2) → newKeys s1 l = newKeys s2 l := by
  induction l with
  | nil =>
    intro s1 s2 h
    rfl
  | cons k ks ih =>
    intro s1 s2 h
    by_cases hk : k ∈ s1
    · simp [newKeys, hk, (h k).mp hk, ih s1 s2 h]
    · have hk2 : k ∉ s2 := fun h2 => hk ((h k).mpr h2)
      simp only [newKeys, if_neg hk, if_neg hk2]
      rw [ih (k :: s1) (k :: s2) (by intro x; simp [h x])]

theorem accessorKeys_insertAll (cs : List Class) : ∀ a : Accessor,
    accessorKeys (accessorInsertAll a cs) =
      accessorKeys a ++ newKeys (accessorKeys a) (cs.map Class.typeName) := by
  induction cs with
  | nil =>
    intro a
    simp [accessorInsertAll, newKeys]
  | cons c cs ih =>
    intro a
    show accessorKeys (accessorInsertAll (accessorSet a c.typeName c) cs) = _
    rw [ih, accessorKeys_set]
    by_cases hmem : c.typeName ∈ accessorKeys a
    · simp only [if_pos hmem, List.map_cons, newKeys]
    · simp only [if_neg hmem, List.map_cons, newKeys, List.append_assoc,
        List.singleton_append]
      rw [newKeys_congr (cs.map Class.typeName) (accessorKeys a ++ [c.typeName])
        (c.typeName :: accessorKeys a) (by intro x; simp [or_comm])]

theorem newKeys_not_mem_seen (l : List String) : ∀ (seen : List String) (x : String),
    x ∈ newKeys seen l → x ∉ seen := by
  induction l with
  | nil =>
    intro seen x h
    simp [newKeys] at h
  | cons k ks ih =>
    intro seen x h hx
    by_cases hk : k ∈ seen
    · exact ih seen x (by simpa [newKeys, hk] using h) hx
    · simp only [newKeys, if_neg hk, List.mem_cons] at h
      cases h with
      | inl h => exact hk (h ▸ hx)
      | inr h => exact ih (k :: seen) x h (List.mem_cons_of_mem k hx)

theorem newKeys_nodup (l : List String) : ∀ seen : List String, (newKeys seen l).Nodup := by
  induction l with
  | nil =>
    intro seen
    simp [newKeys]
  | cons k ks ih =>
    intro seen
    by_cases hk : k ∈ seen
    · simpa [newKeys, hk] using ih seen
    · simp only [newKeys, if_neg hk]
      refine List.nodup_cons.mpr ⟨?_, ih (k :: seen)⟩
      intro hmem
      exact newKeys_not_mem_seen ks (k :: seen) k hmem (List.mem_cons_self k seen)

theorem accessor_find?_eq_of_mem (a : Accessor) (k : String) (v : Class)
    (hnd : (accessorKeys a).Nodup) (hmem : (k, v) ∈ a) :
    a.find? (fun p => p.1 = k) = some (k, v) := by
  induction a with
  | nil => simp at hmem
  | cons p a ih =>
    have hnd2 := hnd
    simp only [accessorKeys, List.map_cons, List.nodup_cons] at hnd2
    rcases List.mem_cons.mp hmem with h | h
    · rw [← h]
      rw [List.find?_cons_of_pos _ (by simp)]
    · have hk : k ∈ List.map Prod.fst a := by
        simpa using List.mem_map_of_mem Prod.fst h
      have hp : ¬ (p.1 = k) := fun h2 => hnd2.1 (h2 ▸ hk)
      rw [List.find?_cons_of_neg _ (by simpa using hp)]
      exact ih (by simpa [accessorKeys] using hnd2.2) h

theorem accessorSet_fst_eq (a : Accessor) (k : String) (v : Class)
    (hinv : ∀ p ∈ a, p.1 = p.2.typeName) (hkv : k = v.typeName) :
    ∀ p ∈ accessorSet a k v, p.1 = p.2.typeName := by
  induction a with
  | nil =>
    intro p hp
    simp [accessorSet] at hp
    simp [hp, hkv]
  | cons q a ih =>
    intro p hp
    by_cases hq : q.1 = k
    · simp only [accessorSet, if_pos hq, List.mem_cons] at hp
      rcases hp with hp | hp
      · simp [hp, hkv]
      · exact hinv p (List.mem_cons_of_mem q hp)
    · simp only [accessorSet, if_neg hq, List.mem_cons] at hp
      rcases hp with hp | hp
      · exact hp ▸ hinv q (List.mem_cons_self q a)
      · exact ih (fun r hr => hinv r (List.mem_cons_of_mem q hr)) p hp

theorem accessorInsertAll_fst_eq (cs : List Class) : ∀ a : Accessor,
    (∀ p ∈ a, p.1 = p.2.typeName) → ∀ p ∈ accessorInsertAll a cs, p.1 = p.2.typeName := by
  induction cs with
  | nil =>
    intro a h
    exact h
  | cons c cs ih =>
    intro a h
    exact ih _ (accessorSet_fst_eq a c.typeName c h rfl)

theorem accessorOfList_keys_nodup (cs : List Class) :
    (accessorKeys (accessorOfList cs)).Nodup := by
  rw [accessorOfList, accessorKeys_insertAll]
  simpa [accessorKeys] using newKeys_nodup (cs.map Class.typeName) []

theorem mem_accessorOfList_values (cs : List Class) (c : Class)
    (h : c ∈ accessorValues (accessorOfList cs)) :
    lastWith? c.typeName cs = some c := by
  rcases List.mem_map.mp h with ⟨p, hp, hsnd⟩
  have hfst : p.1 = p.2.typeName := accessorInsertAll_fst_eq cs [] (by simp) p hp
  have hpair : (p.1, p.2) ∈ accessorOfList cs := by simpa using hp
  have hget : accessorGet? (accessorOfList cs) p.1 = some p.2 := by
    unfold accessorGet?
    rw [accessor_find?_eq_of_mem (accessorOfList cs) p.1 p.2 (accessorOfList_keys_nodup cs) hpair]
    rfl
  have h2 := accessorGet?_insertAll cs [] p.1
  rw [show accessorInsertAll [] cs = accessorOfList cs from rfl, hget] at h2
  cases hlast : lastWith? p.1 cs with
  | none =>
    rw [hlast] at h2
    simp [accessorGet?] at h2
  | some c2 =>
    rw [hlast] at h2
    simp only [Option.some.injEq] at h2
    rw [← hsnd, ← hfst, hlast, h2]

theorem accessorInsertAll_of_nodup (cs : List Class) : ∀ a : Accessor,
    (cs.map Class.typeName).Nodup →
    (∀ c ∈ cs, c.typeName ∉ accessorKeys a) →
    accessorInsertAll a cs = a ++ cs.map (fun c => (c.typeName, c)) := by
  induction cs with
  | nil =>
    intro a h1 h2
    simp [accessorInsertAll]
  | cons c cs ih =>
    intro a hnd hfresh
    simp only [List.map_cons, List.nodup_cons] at hnd
    show accessorInsertAll (accessorSet a c.typeName c) cs = _
    rw [accessorSet_of_not_mem a c.typeName c (hfresh c (List.mem_cons_self c cs))]
    rw [ih (a ++ [(c.typeName, c)]) hnd.2 (by
      intro d hd
      have h1 : d.typeName ∉ accessorKeys a := hfresh d (List.mem_cons_of_mem c hd)
      have h2 : d.typeName ≠ c.typeName := by
        intro h3
        exact hnd.1 (h3 ▸ List.mem_map_of_mem Class.typeName hd)
      simp only [accessorKeys, List.map_append, List.map_cons, List.map_nil, List.mem_append,
        List.mem_singleton, not_or]
      exact ⟨by simpa [accessorKeys] using h1, h2⟩)]
    simp

theorem accessorOfList_values_of_nodup (cs : List Class)
    (hnd : (cs.map Class.typeName).Nodup) :
    accessorValues (accessorOfList cs) = cs := by
  rw [accessorOfList, accessorInsertAll_of_nodup cs [] hnd (by simp [accessorKeys])]
  simp only [accessorValues, List.nil_append, List.map_map]
  have hcomp : (Prod.snd ∘ fun c : Class => (c.typeName, c)) = id := rfl
  rw [hcomp, List.map_id]

theorem currentClassesLoop_spec (vm : VM) (h : Nat) (n : Nat) :
    ∀ (i : Nat) (acc : Accessor) (tr : List Nat),
    currentClassesLoop vm h i n acc tr =
      (accessorInsertAll acc (((List.range n).map (fun j => i + j)).map (vm.imageGetClass h)),
        tr ++ (List.range n).map (fun j => i + j)) := by
  induction n with
  | zero =>
    intro i acc tr
    simp [currentClassesLoop, accessorInsertAll]
  | succ n ih =>
    intro i acc tr
    have hr : (List.range (n + 1)).map (fun j => i + j)
        = i :: (List.range n).map (fun j => i + 1 + j) := by
      rw [List.range_succ_eq_map, List.map_cons, List.map_map]
      refine congrArg₂ List.cons (by omega) (List.map_congr_left ?_)
      intro j hj
      simp only [Function.comp_apply]
      omega
    simp only [currentClassesLoop]
    rw [ih, hr]
    simp [accessorInsertAll, List.append_assoc]

theorem imageClassesCurrent_spec (vm : VM) (h : Nat) :
    imageClassesCurrent vm h =
      (accessorOfList (rawClassesCurrent vm h), List.range (vm.imageGetClassCount h)) := by
  rw [imageClassesCurrent, currentClassesLoop_spec]
  simp [accessorOfList, rawClassesCurrent]

theorem legacyClassesLoop_spec (vm : VM) (n : Nat) :
    ∀ (i : Int) (acc : Accessor) (d : TypeDescriptor) (tr : List TypeDescriptor),
    (legacyClassesLoop vm i n acc d tr).table =
      accessorInsertAll acc
        (((List.range n).map (fun j : Nat => (⟨i + j, d.typeEnum⟩ : TypeDescriptor))).map
          vm.typeGetClassOrElementClass)
  ∧ (legacyClassesLoop vm i n acc d tr).resolved =
      tr ++ (List.range n).map (fun j : Nat => (⟨i + j, d.typeEnum⟩ : TypeDescriptor)) := by
  induction n with
  | zero =>
    intro i acc d tr
    simp [legacyClassesLoop, accessorInsertAll]
  | succ n ih =>
    intro i acc d tr
    have hr : (List.range (n + 1)).map (fun j : Nat => (⟨i + j, d.typeEnum⟩ : TypeDescriptor))
        = (⟨i, d.typeEnum⟩ : TypeDescriptor) ::
            (List.range n).map (fun j : Nat => (⟨i + 1 + j, d.typeEnum⟩ : TypeDescriptor)) := by
      rw [List.range_succ_eq_map, List.map_cons, List.map_map]
      refine congrArg₂ List.cons (by simp) (List.map_congr_left ?_)
      intro j hj
      simp only [Function.comp_apply, TypeDescriptor.mk.injEq, and_true]
      push_cast
      ring
    simp only [legacyClassesLoop]
    rw [hr]
    refine ⟨?_, ?_⟩
    · rw [(ih (i + 1) _ _ _).1]
      simp [accessorInsertAll]
    · rw [(ih (i + 1) _ _ _).2]
      simp [List.append_assoc]

theorem imageClassesLegacy_spec (vm : VM) (h : Nat) :
    (imageClassesLegacy vm h).table =
      accessorOfList ((List.range (vm.imageGetClassCount h)).map
        (fun j : Nat => vm.typeGetClassOrElementClass ⟨vm.imageGetClassStart h + (j : Int), 0x20⟩))
  ∧ (imageClassesLegacy vm h).resolved =
      (List.range (vm.imageGetClassCount h)).map
        (fun j : Nat => (⟨vm.imageGetClassStart h + j, 0x20⟩ : TypeDescriptor)) := by
  constructor
  · rw [imageClassesLegacy, (legacyClassesLoop_spec vm _ _ _ _ _).1, List.map_map]
    rfl
  · rw [imageClassesLegacy, (legacyClassesLoop_spec vm _ _ _ _ _).2]
    simp

theorem imageClasses_eq_accessorOfList (vm : VM) (h : Nat) :
    imageClasses vm h = accessorOfList (imageRawClasses vm h) := by
  rw [imageClasses, imageRawClasses]
  by_cases hl : vm.legacy
  · simp only [if_pos hl]
    exact (imageClassesLegacy_spec vm h).1
  · simp only [if_neg hl]
    rw [imageClassesCurrent_spec]
    rfl

theorem flatten_nil_of_all_nil {α : Type} (l : List (List α)) (h : ∀ x ∈ l, x = []) :
    l.flatten = [] := by
  induction l with
  | nil => rfl
  | cons x l ih =>
    rw [List.flatten_cons, h x (List.mem_cons_self x l), List.nil_append]
    exact ih (fun y hy => h y (List.mem_cons_of_mem x hy))

theorem methodInflations_of_not_generic (ms : List Method) :
    ((ms.map (fun m0 => processMethod false m0)).map Prod.snd).flatten =
      (ms.filter (fun m => m.isGeneric)).map
        (fun m => (m.genericParameterCount, getTypeArray m.genericParameterCount)) := by
  induction ms with
  | nil => rfl
  | cons m ms ih =>
    simp only [List.map_cons, List.flatten_cons, List.filter_cons]
    rw [ih]
    by_cases hm : m.isGeneric = true
    · simp [processMethod, hm]
    · have hm2 : m.isGeneric = false := by simpa using hm
      simp [processMethod, hm2]

theorem processMethod_snd_entries (b : Bool) (m0 : Method) :
    ∀ p ∈ (processMethod b m0).2, p.2 = getTypeArray p.1 := by
  intro p hp
  by_cases hg : (m0.isGeneric && !b) = true
  · simp only [processMethod, if_pos hg, List.mem_singleton] at hp
    rw [hp]
  · simp [processMethod, hg] at hp

theorem processClass_snd_entries (c0 : Class) :
    ∀ p ∈ (processClass c0).2, p.2 = getTypeArray p.1 := by
  intro p hp
  by_cases hg : c0.isGeneric
  · simp only [processClass, if_pos hg, List.mem_singleton] at hp
    rw [hp]
  · simp [processClass, hg] at hp

theorem dumpClassMethods_lines_eq (c0 : Class) :
    (dumpClassMethods c0).lines =
      (processedMethods c0).filterMap (methodLine (processedClass c0).typeName) := by
  simp only [dumpClassMethods, processedMethods, processedClass, List.filterMap_map]
  rfl

theorem buildWriteLoop_append_oks (oks : List String) :
    ∀ (ops : List FileOp) (l : List (Except String String)),
    buildWriteLoop ops (oks.map Except.ok ++ l) = buildWriteLoop (ops ++ oks.map FileOp.write) l := by
  induction oks with
  | nil =>
    intro ops l
    simp
  | cons s oks ih =>
    intro ops l
    simp only [List.map_cons, List.cons_append, buildWriteLoop, List.append_eq]
    rw [ih]
    simp [List.append_assoc]

theorem replaceFirst_append_self (pat : List Char) : ∀ b : List Char,
    (∀ i < b.length, ¬ (pat.isPrefixOf (b.drop i ++ pat) = true)) →
    replaceFirst pat [] (b ++ pat) = [] ++ b := by
  intro b
  induction b with
  | nil =>
    intro h
    cases pat with
    | nil => rfl
    | cons c cs =>
      simp [replaceFirst, List.isPrefixOf_iff_prefix, List.drop_length]
  | cons c b ih =>
    intro h
    have h0 : ¬ (pat.isPrefixOf (c :: (b ++ pat)) = true) := by
      have h1 := h 0 (by simp)
      simpa using h1
    show replaceFirst pat [] (c :: (b ++ pat)) = [] ++ (c :: b)
    rw [replaceFirst, if_neg h0]
    have hrec := ih (fun i hi => by
      have h2 := h (i + 1) (Nat.succ_lt_succ hi)
      simpa using h2)
    simp only [List.nil_append] at hrec ⊢
    exact congrArg (fun t => c :: t) hrec

/-- **C4.** For every Image under the Legacy layout with `classStart = S` and
`classCount = C`, `classes` resolves exactly the indices `S, S+1, ..., S+C-1`
against the global class table, each by writing the index into the synthesized
type descriptor (whose type-enum field holds `0x20`) and asking the VM to
resolve class-or-element-class for it; the table is built from exactly those
resolutions, in that order. -/
theorem legacy_classes_resolve_index_range (vm : VM) (h : Nat) :
    (imageClassesLegacy vm h).resolved =
      (List.range (vm.imageGetClassCount h)).map
        (fun j : Nat => (⟨vm.imageGetClassStart h + (j : Int), 0x20⟩ : TypeDescriptor))
  ∧ (imageClassesLegacy vm h).table =
      accessorOfList ((List.range (vm.imageGetClassCount h)).map
        (fun j : Nat => vm.typeGetClassOrElementClass ⟨vm.imageGetClassStart h + (j : Int), 0x20⟩)) :=
  ⟨(imageClassesLegacy_spec vm h).2, (imageClassesLegacy_spec vm h).1⟩

/-- **C6.** When an Image's by-name class table is built, entries are inserted
in traversal order keyed by the class's full type name: the slot sequence is
the first-occurrence subsequence of the traversed names (`newKeys [] _`), with
no duplicate key, and when two classes share the same full type name the
later-traversed one overwrites the earlier one's slot — lookup returns the
last traversed class with that name (`lastWith?`). -/
theorem class_table_order_and_overwrite (cs : List Class) :
    accessorKeys (accessorOfList cs) = newKeys [] (cs.map Class.typeName)
  ∧ (accessorKeys (accessorOfList cs)).Nodup
  ∧ ∀ k, accessorGet? (accessorOfList cs) k = lastWith? k cs := by
  refine ⟨?_, accessorOfList_keys_nodup cs, ?_⟩
  · rw [accessorOfList, accessorKeys_insertAll]
    simp [accessorKeys]
  · intro k
    rw [accessorOfList, accessorGet?_insertAll]
    cases hlast : lastWith? k cs with
    | some c => rfl
    | none => simp [accessorGet?]

/-- **C3.** In the methods dump a method is independently inflated iff it is
itself generic and its declaring class is not: when the source class is
generic no method-level inflation happens at all (the traversed methods carry
the class's substitution and report non-generic), and when it is not generic
exactly its generic methods are inflated, each with its own placeholder
argument list. -/
theorem method_inflation_iff_generic_method_of_non_generic_class (c0 : Class) :
    (dumpClassMethods c0).methodInflations =
      if c0.isGeneric then []
      else (c0.methods.filter (fun m => m.isGeneric)).map
        (fun m => (m.genericParameterCount, getTypeArray m.genericParameterCount)) := by
  by_cases hg : c0.isGeneric = true
  · rw [if_pos hg]
    simp only [dumpClassMethods, processClass, if_pos hg, Class.inflateRaw]
    apply flatten_nil_of_all_nil
    intro x hx
    rw [List.map_map, List.map_map] at hx
    rcases List.mem_map.mp hx with ⟨m0, hm0, hxeq⟩
    rw [← hxeq]
    simp [processMethod]
  · have hg2 : c0.isGeneric = false := by simpa using hg
    rw [if_neg (by simp [hg2])]
    simp only [dumpClassMethods, processClass, hg2, Bool.false_eq_true, if_false]
    exact methodInflations_of_not_generic c0.methods

/-- **C5.** Whenever the methods dump inflates a generic class or method with
generic parameter count `k`, the argument list it passes has length exactly
`k` and every slot holds the root object type placeholder (`System.Object`). -/
theorem inflation_placeholder_args (c0 : Class) :
    ∀ p ∈ (dumpClassMethods c0).classInflations ++ (dumpClassMethods c0).methodInflations,
      p.2.length = p.1 ∧ ∀ x ∈ p.2, x = TypeObj.systemObject := by
  intro p hp
  have hent : p.2 = getTypeArray p.1 := by
    rcases List.mem_append.mp hp with hp2 | hp2
    · exact processClass_snd_entries c0 p (by simpa [dumpClassMethods] using hp2)
    · simp only [dumpClassMethods] at hp2
      rcases List.mem_flatten.mp hp2 with ⟨l, hl, hpl⟩
      rcases List.mem_map.mp hl with ⟨pm, hpm, hpmeq⟩
      rcases List.mem_map.mp hpm with ⟨m0, hm0, hmeq⟩
      have hin : p ∈ (processMethod (processClass c0).1.isGeneric m0).2 := by
        rw [hmeq, hpmeq]
        exact hpl
      exact processMethod_snd_entries _ m0 p hin
  rw [hent, getTypeArray]
  exact ⟨List.length_replicate _ _, fun x hx => List.eq_of_mem_replicate hx⟩

/-- **C5 witness.** Dumping an open generic class with two parameters records
one class inflation whose argument list has length 2 and all slots
`System.Object`. -/
theorem inflation_placeholder_args_witness :
    ((2 : Nat), getTypeArray 2) ∈
      (dumpClassMethods genericClassG).classInflations ++ (dumpClassMethods genericClassG).methodInflations
  ∧ (getTypeArray 2).length = 2 ∧ ∀ x ∈ getTypeArray 2, x = TypeObj.systemObject := by
  refine ⟨by decide, ?_⟩
  exact inflation_placeholder_args genericClassG (2, getTypeArray 2) (by decide)

/-- **C2 counterexample.** The claim that under the Current layout `classes`
yields exactly `classCount` distinct Class views fails on a VM whose image
reports two classes with the same full type name: the by-name table collapses
them into one slot, so only one view is yielded while `classCount = 2`. -/
theorem current_classes_collision_counterexample :
    collisionVM2.legacy = false
  ∧ collisionVM2.imageGetClass 0 0 ≠ collisionVM2.imageGetClass 0 1
  ∧ (accessorValues (imageClassesCurrent collisionVM2 0).1).length = 1
  ∧ collisionVM2.imageGetClassCount 0 = 2
  ∧ (accessorValues (imageClassesCurrent collisionVM2 0).1).length ≠
      collisionVM2.imageGetClassCount 0 := by
  decide

/-- **C2 (amended).** Under the Current layout, `classes` is built by asking
the VM for the Nth class of the image for every N in `[0, classCount)`, in
index order (the query trace is exactly `0, ..., classCount - 1`), and the
collection is the by-name table of that sequence.  It yields exactly
`classCount` pairwise-distinct Class views in the VM's index order provided
the classes' full type names are pairwise distinct (a name collision
collapses slots, last-write-wins).  Querying a second time returns the
identical sequence with no further native class reads (memoization). -/
theorem current_classes_spec (vm : VM) (h : Nat) :
    (imageClassesCurrent vm h).2 = List.range (vm.imageGetClassCount h)
  ∧ (imageClassesCurrent vm h).1 = accessorOfList (rawClassesCurrent vm h)
  ∧ (((rawClassesCurrent vm h).map Class.typeName).Nodup →
      accessorValues (imageClassesCurrent vm h).1 = rawClassesCurrent vm h
      ∧ (rawClassesCurrent vm h).Nodup
      ∧ (accessorValues (imageClassesCurrent vm h).1).length = vm.imageGetClassCount h)
  ∧ ((cachedClasses vm ⟨h, (cachedClasses vm ⟨h, none⟩).2.1.classesCache⟩).1 =
        (cachedClasses vm ⟨h, none⟩).1
      ∧ (cachedClasses vm ⟨h, (cachedClasses vm ⟨h, none⟩).2.1.classesCache⟩).2.2 = 0) := by
  have htab : (imageClassesCurrent vm h).1 = accessorOfList (rawClassesCurrent vm h) := by
    rw [imageClassesCurrent_spec]
  refine ⟨by rw [imageClassesCurrent_spec], htab, ?_, rfl, rfl⟩
  intro hnd
  have hv : accessorValues (imageClassesCurrent vm h).1 = rawClassesCurrent vm h := by
    rw [htab]
    exact accessorOfList_values_of_nodup _ hnd
  refine ⟨hv, List.Nodup.of_map Class.typeName hnd, ?_⟩
  rw [hv, rawClassesCurrent]
  simp

/-- **C2 witness.** On a VM whose image 0 reports the two distinct names
`A`, `B`, the table's values are exactly the two raw classes in index
order. -/
theorem current_classes_spec_witness :
    (rawClassesCurrent distinctVM 0).map Class.typeName = ["A", "B"]
  ∧ accessorValues (imageClassesCurrent distinctVM 0).1 = rawClassesCurrent distinctVM 0 := by
  have h := (current_classes_spec distinctVM 0).2.2.1 (by decide)
  exact ⟨by decide, h.1⟩

/-- **C1.** The methods dump emits, for every class it traverses, one line
per traversed method whose virtual address is non-null and nothing for a
method whose virtual address is null (skipped, never an error): the emitted
line is the fixed-width hexadecimal rendering of the method's module-relative
address, a space, the declaring type's name, a dot, the method's name, and a
newline; the rendering has a fixed width (18 characters including the `0x`
marker) for every address. -/
theorem methods_dump_line_iff (vm : VM) (h : Nat) :
    methodsDumpImage vm h = (accessorValues (imageClasses vm h)).flatMap
      (fun c0 => (processedMethods c0).filterMap (methodLine (processedClass c0).typeName))
  ∧ (∀ tn m, (methodLine tn m).isSome ↔ m.virtualAddress ≠ 0)
  ∧ (∀ tn m, m.virtualAddress ≠ 0 →
      methodLine tn m =
        some (formatNativePointer m.relativeVirtualAddress ++ " " ++ tn ++ "." ++ m.name ++ "\n"))
  ∧ (∀ p : Nat, (formatNativePointer p).length = 18) := by
  refine ⟨?_, ?_, ?_, ?_⟩
  · rw [methodsDumpImage]
    exact congrArg (List.flatMap (accessorValues (imageClasses vm h)))
      (funext fun c0 => dumpClassMethods_lines_eq c0)
  · intro tn m
    by_cases hva : m.virtualAddress = 0
    · simp [methodLine, hva]
    · simp [methodLine, hva]
  · intro tn m hva
    simp [methodLine, hva]
  · intro p
    simp [formatNativePointer, String.length_append]
    rfl

/-- **C1 witness.** A concrete method with relative address `256` and a
non-null virtual address yields exactly the expected line, and the rendering
is 18 characters wide. -/
theorem methods_dump_line_iff_witness :
    methodLine "C0" sampleMethod =
      some (formatNativePointer 256 ++ " " ++ "C0" ++ "." ++ "M0" ++ "\n")
  ∧ (formatNativePointer 256).length = 18 := by
  have h := methods_dump_line_iff collisionVM 0
  exact ⟨h.2.2.1 "C0" sampleMethod (by decide), h.2.2.2 256⟩

/-- **C7 counterexample.** When chunk production fails after one chunk, the
file-handle trace contains the one write but neither a flush nor a close:
there is no scoped acquisition with guaranteed release on the failure path. -/
theorem build_no_flush_on_failure_counterexample :
    (build true [Except.ok "line ", Except.error "boom"]).1 = [FileOp.write "line "]
  ∧ FileOp.flushOp ∉ (build true [Except.ok "line ", Except.error "boom"]).1
  ∧ FileOp.closeOp ∉ (build true [Except.ok "line ", Except.error "boom"]).1
  ∧ (build true [Except.ok "line ", Except.error "boom"]).2 =
      some (DumpError.generatorError "boom") := by
  decide

/-- **C7 (amended).** `build` behaves as follows: if the destination file
cannot be opened for writing, the whole dump fails with an IOFailure
condition before any write; if every chunk is produced, the chunks are
written in order and the handle is then flushed and closed; but if chunk
production fails partway through, the error propagates and neither flush nor
close is performed — flush/close are guaranteed on the success path only. -/
theorem build_paths (oks : List String) (e : String)
    (rest : List (Except String String)) (chunks : List (Except String String)) :
    build false chunks = ([], some DumpError.ioFailure)
  ∧ build true (oks.map Except.ok) =
      (oks.map FileOp.write ++ [FileOp.flushOp, FileOp.closeOp], none)
  ∧ build true (oks.map Except.ok ++ Except.error e :: rest) =
      (oks.map FileOp.write, some (DumpError.generatorError e)) := by
  refine ⟨rfl, ?_, ?_⟩
  · rw [build, if_pos rfl, ← List.append_nil (oks.map Except.ok), buildWriteLoop_append_oks]
    simp [buildWriteLoop]
  · rw [build, if_pos rfl, buildWriteLoop_append_oks]
    simp [buildWriteLoop]

/-- **C9.** With no directory or file name configured, `build` writes to
`<persistentDataPath>/<base>.<extension>`, where the extension is the one the
selected dump kind set (`cs` or `ms`) and the base name is
`<identifier>_<version>` when both host getters yield values, or the numeric
timestamp when either getter is absent or fails. -/
theorem default_destination_naming (host : HostApp) (kind : DumpKind) :
    destinationPath ⟨none, none, some (extensionFor kind)⟩ host =
      host.persistentDataPath ++ "/" ++ defaultFileName host ++ "." ++ extensionFor kind
  ∧ (∀ i v, host.identifier = some i → host.version = some v →
      defaultFileName host = i ++ "_" ++ v)
  ∧ (host.identifier = none ∨ host.version = none →
      defaultFileName host = toString host.timestamp) := by
  refine ⟨rfl, ?_, ?_⟩
  · intro i v hi hv
    simp [defaultFileName, hi, hv]
  · intro hcase
    rcases hcase with hi | hv
    · simp [defaultFileName, hi]
    · cases hid : host.identifier <;> simp [defaultFileName, hid, hv]

/-- **C9 witness.** With identifier `com.x.y` and version `1.0`, the methods
dump's default destination is `/data/com.x.y_1.0.ms`; with the identifier
getter absent, the base name is the timestamp `42`. -/
theorem default_destination_naming_witness :
    destinationPath ⟨none, none, some (extensionFor DumpKind.methodsKind)⟩
      ⟨"/data", some "com.x.y", some "1.0", 1700000000⟩ = "/data/com.x.y_1.0.ms"
  ∧ defaultFileName ⟨"/data", none, some "1.0", 42⟩ = "42" := by
  have h1 := default_destination_naming ⟨"/data", some "com.x.y", some "1.0", 1700000000⟩
    DumpKind.methodsKind
  have h2 := default_destination_naming ⟨"/data", none, some "1.0", 42⟩ DumpKind.methodsKind
  refine ⟨?_, ?_⟩
  · rw [h1.1, h1.2.1 "com.x.y" "1.0" rfl rfl]
    rfl
  · rw [h2.2.2 (Or.inl rfl)]
    rfl

/-- **C10 counterexample.** For image name `x.dlly` the assembly name is
`xy`: `replace` removes the FIRST occurrence of `.dll`, not a trailing
extension, and the image name is not the assembly name plus `.dll`. -/
theorem assembly_name_not_suffix_strip_counterexample :
    assemblyName "x.dlly" = "xy"
  ∧ assemblyName "x.dlly" ++ ".dll" ≠ "x.dlly" := by
  decide

/-- **C10 (amended).** The assembly name is the image name with the first
occurrence of `.dll` removed (the whole name when there is none); when the
image name is `base ++ ".dll"` and `.dll` occurs nowhere inside `base`'s
portion (its first occurrence is the final extension), the assembly name is
`base` and the round trip holds: the image name is the assembly name plus
`.dll`. -/
theorem assembly_name_strips_first_dll (base : String)
    (h : ∀ i < base.data.length,
      ¬ (".dll".data.isPrefixOf (base.data.drop i ++ ".dll".data) = true)) :
    assemblyName (base ++ ".dll") = base
  ∧ base ++ ".dll" = assemblyName (base ++ ".dll") ++ ".dll" := by
  have h1 : assemblyName (base ++ ".dll") = base := by
    show String.mk (replaceFirst ".dll".data [] (base ++ ".dll").data) = base
    have hdata : (base ++ ".dll").data = base.data ++ ".dll".data := rfl
    rw [hdata, replaceFirst_append_self ".dll".data base.data h, List.nil_append]
  exact ⟨h1, by rw [h1]⟩

/-- **C10 witness.** For image name `mscorlib.dll` the assembly name is
`mscorlib` and the round trip holds. -/
theorem assembly_name_strips_first_dll_witness :
    assemblyName ("mscorlib" ++ ".dll") = "mscorlib"
  ∧ "mscorlib" ++ ".dll" = assemblyName ("mscorlib" ++ ".dll") ++ ".dll" := by
  exact assembly_name_strips_first_dll "mscorlib" (by decide)

/-- **C8.** The class collection an Image exposes is exactly its by-name
table; both dump kinds traverse exactly that table's values; consequently a
class of the image whose full type name reappears later in the traversal (so
that it is not the last with its name) is absent from the values both dumps
iterate — the image exposes no separate ordered class sequence. -/
theorem dumps_iterate_by_name_table (render : Class → String) (vm : VM) (h : Nat) (c : Class)
    (hmem : c ∈ imageRawClasses vm h)
    (hnotlast : lastWith? c.typeName (imageRawClasses vm h) ≠ some c) :
    imageClasses vm h = accessorOfList (imageRawClasses vm h)
  ∧ classesDumpImage render vm h = (accessorValues (imageClasses vm h)).map render
  ∧ methodsDumpImage vm h =
      (accessorValues (imageClasses vm h)).flatMap (fun c2 => (dumpClassMethods c2).lines)
  ∧ c ∉ accessorValues (imageClasses vm h) := by
  refine ⟨imageClasses_eq_accessorOfList vm h, rfl, rfl, ?_⟩
  intro hc
  rw [imageClasses_eq_accessorOfList vm h] at hc
  exact hnotlast (mem_accessorOfList_values _ c hc)

/-- **C8 witness.** On a VM whose image 0 reports `classA` at index 0 and the
distinct same-named `classA2` at index 1, the earlier `classA` is a class of
the image yet absent from the values the dumps traverse. -/
theorem dumps_iterate_by_name_table_witness :
    classA ∈ imageRawClasses collisionVM2 0
  ∧ classA ∉ accessorValues (imageClasses collisionVM2 0) := by
  have h := dumps_iterate_by_name_table (fun c => c.typeName) collisionVM2 0 classA
    (by decide) (by decide)
  exact ⟨by decide, h.2.2.2⟩

end Il2CppModel
